import Mathlib

/-!
Verification of the `ref_list` module (`src/ref_list.rs`): a reference-tracking
list `RefList<T>` whose elements are `Rc<RefCell<Entry<T>>>` cells shared with
external handle clones (`EntryRef<T>`), together with its batched-deletion
protocol (`DeleteTransaction` / `done_delete`).

The Rust heap of `Rc<RefCell<Entry<T>>>` cells is modelled explicitly: a state
carries a `store` (the heap, one `Cell` per allocated `Rc`, recording the entry
and the strong count) and `items` (the list's `Vec<EntryRef<T>>`, as pointers
into the store).  An `EntryRef` is a pointer (a `Nat` index into the store).
Panics (`Vec::remove` out of bounds, the `unreachable!` branch, `usize`
subtraction underflow as checked in debug builds) are modelled with `Except`,
the error value carrying the observable state at the moment of the fault.
-/

namespace RefListModel

/-- `EntryOrigin`: either currently at an index of the list, or detached. -/
inductive EntryOrigin where
  | Index (i : Nat)
  | Detached
deriving DecidableEq

/-- `Entry<T>`: a value together with its origin. -/
structure Entry (T : Type) where
  val : T
  index : EntryOrigin
deriving DecidableEq

/-- `Entry::new(val, index)`. -/
def Entry.new (val : T) (index : Nat) : Entry T :=
  { val := val, index := .Index index }

/-- `Entry::order()`. -/
def Entry.order (e : Entry T) : Option Nat :=
  match e.index with
  | .Detached => none
  | .Index idx => some idx

/-- One heap cell: models `Rc<RefCell<Entry<T>>>`, i.e. the entry plus the
strong reference count of the `Rc`. -/
structure Cell (T : Type) where
  entry : Entry T
  rc : Nat
deriving DecidableEq

/-- The state of a `RefList<T>` together with the heap of all cells it ever
allocated (cells stay in the heap while external handles may reference them). -/
structure RefListState (T : Type) where
  store : List (Cell T)
  items : List Nat
deriving DecidableEq

/-- Update the cell a pointer refers to (no-op on a dangling pointer, which
never occurs for pointers created by the operations below). -/
def setCell (store : List (Cell T)) (p : Nat) (f : Cell T → Cell T) :
    List (Cell T) :=
  match store[p]? with
  | some c => store.set p (f c)
  | none => store

/-- `EntryRef::clone()`: bump the strong count of the cell. -/
def cloneHandle (s : RefListState T) (p : Nat) : RefListState T :=
  { s with store := setCell s.store p (fun c => { c with rc := c.rc + 1 }) }

/-- Dropping an `EntryRef`: decrement the strong count of the cell. -/
def dropHandle (s : RefListState T) (p : Nat) : RefListState T :=
  { s with store := setCell s.store p (fun c => { c with rc := c.rc - 1 }) }

/-- `EntryRef::order()` of the handle `p` in state `s`. -/
def orderOf (s : RefListState T) (p : Nat) : Option Nat :=
  match s.store[p]? with
  | some c => c.entry.order
  | none => none

/-- The value stored behind handle `p` (read through `EntryRef::read()`). -/
def valOf (s : RefListState T) (p : Nat) : Option T :=
  (s.store[p]?).map (fun c => c.entry.val)

/-- `EntryRef::link_count()`: `Rc::strong_count(&self.0) - 1`. -/
def link_count (s : RefListState T) (p : Nat) : Nat :=
  (match s.store[p]? with
   | some c => c.rc
   | none => 0) - 1

namespace RefList

/-- `RefList::new()` / `Default::default()`. -/
def new (T : Type) : RefListState T := { store := [], items := [] }

/-- `RefList::push(t)`: allocate `Entry::new(t, len)` in a fresh `Rc` (strong
count 1), push a clone into `items` (strong count 2), return the handle. -/
def push (s : RefListState T) (t : T) : RefListState T × Nat :=
  let idx := s.items.length
  let p := s.store.length
  ({ store := s.store ++ [{ entry := Entry.new t idx, rc := 2 }],
     items := s.items ++ [p] }, p)

/-- `RefList::from_slice(list)`: push each element; the handle returned by
`push` is discarded, so its drop brings the strong count back to 1. -/
def from_slice (l : List T) : RefListState T :=
  l.foldl (fun s t => let r := push s t; dropHandle r.1 r.2) (new T)

/-- `RefList::get(idx)`: checked lookup; on success the handle is cloned. -/
def get (s : RefListState T) (idx : Nat) : Option Nat × RefListState T :=
  match s.items[idx]? with
  | none => (none, s)
  | some p => (some p, cloneHandle s p)

/-- `RefList::len()`. -/
def len (s : RefListState T) : Nat := s.items.length

/-- `RefList::clone_ref(idx)`: unchecked variant, faults when out of bounds. -/
def clone_ref (s : RefListState T) (idx : Nat) :
    Except (RefListState T) (Nat × RefListState T) :=
  match s.items[idx]? with
  | none => .error s
  | some p => .ok (p, cloneHandle s p)

/-- One iteration of the first loop of `done_delete`: `items.remove(idx)`
(panics when `idx` is out of bounds), mark the removed entry `Detached`, and
drop the removed internal handle (its binding goes out of scope). -/
def removeStep (s : RefListState T) (idx : Nat) :
    Except (RefListState T) (RefListState T) :=
  match s.items[idx]? with
  | none => .error s
  | some p =>
      .ok { store := setCell s.store p
              (fun c => { entry := { val := c.entry.val, index := .Detached },
                          rc := c.rc - 1 }),
            items := s.items.eraseIdx idx }

/-- The first loop of `done_delete`, over the batch in the given order. -/
def removePass (s : RefListState T) (indices : List Nat) :
    Except (RefListState T) (RefListState T) :=
  indices.foldl (fun acc idx => acc.bind (fun st => removeStep st idx)) (.ok s)

/-- `indices.iter().take_while(|x| **x < j).count()`: length of the longest
prefix of the batch all of whose members are strictly below `j`. -/
def cntLess (indices : List Nat) (j : Nat) : Nat :=
  (indices.takeWhile (fun x => decide (x < j))).length

/-- One iteration of the second loop of `done_delete` on the entry behind
pointer `p`: read its order (the `unreachable!` branch fires when the entry is
`Detached`), and subtract the `take_while` count (`usize` subtraction, a fault
on underflow). -/
def renumberStep (indices : List Nat) (store : List (Cell T)) (p : Nat) :
    Option (List (Cell T)) :=
  match store[p]? with
  | none => none
  | some c =>
      match c.entry.index with
      | .Detached => none
      | .Index idx =>
          let total_less := cntLess indices idx
          if total_less ≤ idx then
            some (store.set p
              { entry := { val := c.entry.val, index := .Index (idx - total_less) },
                rc := c.rc })
          else none

/-- The second loop of `done_delete`: renumber every entry still in `items`. -/
def renumberPass (indices : List Nat) (ptrs : List Nat)
    (store : List (Cell T)) : Except (List (Cell T)) (List (Cell T)) :=
  ptrs.foldl
    (fun acc p => acc.bind (fun st =>
      match renumberStep indices st p with
      | some st2 => .ok st2
      | none => .error st))
    (.ok store)

/-- `RefList::done_delete(indices)`: remove each position of the batch in
order from the shifting vector, then renumber the survivors.  An `.error`
result is a panic, carrying the state observable at the fault. -/
def done_delete (s : RefListState T) (indices : List Nat) :
    Except (RefListState T) (RefListState T) :=
  match removePass s indices with
  | .error e => .error e
  | .ok s1 =>
      match renumberPass indices s1.items s1.store with
      | .error st => .error { s1 with store := st }
      | .ok st => .ok { s1 with store := st }

/-- `RefList::delete(indices)`. -/
def delete (s : RefListState T) (indices : List Nat) :
    Except (RefListState T) (RefListState T) :=
  done_delete s indices

/-- `RefList::delete_one(index)`. -/
def delete_one (s : RefListState T) (index : Nat) :
    Except (RefListState T) (RefListState T) :=
  done_delete s [index]

end RefList

/-- The observable state of a finished or faulted operation: on a panic the
heap cells (shared through outstanding handles) and the list are observable in
the state they had at the fault. -/
def stateOf (e : Except (RefListState T) (RefListState T)) : RefListState T :=
  match e with
  | .ok s => s
  | .error s => s

/-- `DeleteTransaction<'a, T>`: the borrowed list plus accumulated indices. -/
structure DeleteTransaction (T : Type) where
  list : RefListState T
  deleted : List Nat
deriving DecidableEq

/-- `RefList::begin_delete()`. -/
def RefList.begin_delete (s : RefListState T) : DeleteTransaction T :=
  { list := s, deleted := [] }

/-- `DeleteTransaction::push(idx)` (consuming builder). -/
def DeleteTransaction.push (tx : DeleteTransaction T) (idx : Nat) :
    DeleteTransaction T :=
  { tx with deleted := tx.deleted ++ [idx] }

/-- `DeleteTransaction::done()`. -/
def DeleteTransaction.done (tx : DeleteTransaction T) :
    Except (RefListState T) (RefListState T) :=
  RefList.done_delete tx.list tx.deleted

/-- Well-formedness of a `RefList` state between operations: the pointers in
`items` are pairwise distinct, and the entry at position `pos` carries origin
`Index pos`. -/
def WF (s : RefListState T) : Prop :=
  s.items.Nodup ∧
  ∀ pos p, s.items[pos]? = some p →
    ∃ c : Cell T, s.store[p]? = some c ∧ c.entry.index = .Index pos

/-- Weak invariant holding mid-deletion: pointers in `items` are distinct,
valid, and their entries all carry an `Index` origin (not `Detached`). -/
def AllIndexed (s : RefListState T) : Prop :=
  s.items.Nodup ∧
  ∀ p ∈ s.items, ∃ c : Cell T, s.store[p]? = some c ∧ ∃ j, c.entry.index = .Index j

/-! ### Basic lemmas about the heap and the passes -/

theorem setCell_getElem_eq {store : List (Cell T)} {p : Nat} {c : Cell T}
    (h : store[p]? = some c) (f : Cell T → Cell T) :
    (setCell store p f)[p]? = some (f c) := by
  have hlt : p < store.length := (List.getElem?_eq_some_iff.mp h).1
  simp [setCell, h, List.getElem?_set_self hlt]

theorem setCell_getElem_ne (store : List (Cell T)) (p : Nat) (f : Cell T → Cell T)
    {q : Nat} (h : q ≠ p) : (setCell store p f)[q]? = store[q]? := by
  unfold setCell
  cases hp : store[p]? with
  | none => rfl
  | some c => exact List.getElem?_set_ne (fun he => h he.symm)

theorem setCell_length (store : List (Cell T)) (p : Nat) (f : Cell T → Cell T) :
    (setCell store p f).length = store.length := by
  unfold setCell
  cases hp : store[p]? with
  | none => rfl
  | some c => exact List.length_set ..

theorem removePass_nil (s : RefListState T) : RefList.removePass s [] = .ok s := rfl

theorem removePass_error (e : RefListState T) (indices : List Nat) :
    indices.foldl
      (fun (acc : Except (RefListState T) (RefListState T)) idx =>
        acc.bind (fun st => RefList.removeStep st idx))
      (.error e) = .error e := by
  induction indices with
  | nil => rfl
  | cons i is ih => simpa [Except.bind] using ih

theorem removePass_cons (s : RefListState T) (i : Nat) (is : List Nat) :
    RefList.removePass s (i :: is) =
      match RefList.removeStep s i with
      | .ok s1 => RefList.removePass s1 is
      | .error e => .error e := by
  unfold RefList.removePass
  cases h : RefList.removeStep s i with
  | ok s1 => simp [List.foldl_cons, Except.bind, h]
  | error e =>
      simp only [List.foldl_cons, Except.bind, h]
      exact removePass_error e is

theorem removePass_append (s : RefListState T) (a b : List Nat) :
    RefList.removePass s (a ++ b) =
      match RefList.removePass s a with
      | .ok s1 => RefList.removePass s1 b
      | .error e => .error e := by
  unfold RefList.removePass
  rw [List.foldl_append]
  cases h : RefList.removePass s a with
  | ok s1 =>
      unfold RefList.removePass at h
      rw [h]
  | error e =>
      unfold RefList.removePass at h
      rw [h]
      exact removePass_error e b

theorem renumberPass_nil (indices : List Nat) (store : List (Cell T)) :
    RefList.renumberPass indices [] store = .ok store := rfl

theorem renumberPass_error (indices : List Nat) (e : List (Cell T))
    (ptrs : List Nat) :
    ptrs.foldl
      (fun (acc : Except (List (Cell T)) (List (Cell T))) p =>
        acc.bind (fun st =>
          match RefList.renumberStep indices st p with
          | some st2 => .ok st2
          | none => .error st))
      (.error e) = .error e := by
  induction ptrs with
  | nil => rfl
  | cons p ps ih => simpa [Except.bind] using ih

theorem renumberPass_cons (indices : List Nat) (p : Nat) (ps : List Nat)
    (store : List (Cell T)) :
    RefList.renumberPass indices (p :: ps) store =
      match RefList.renumberStep indices store p with
      | some st2 => RefList.renumberPass indices ps st2
      | none => .error store := by
  unfold RefList.renumberPass
  cases h : RefList.renumberStep indices store p with
  | some st2 => simp [List.foldl_cons, Except.bind, h]
  | none =>
      simp only [List.foldl_cons, Except.bind, h]
      exact renumberPass_error ..

/-! ### Lemmas about the `take_while` count -/

theorem cntLess_le_of_nodup {indices : List Nat} (hnd : indices.Nodup) (j : Nat) :
    RefList.cntLess indices j ≤ j := by
  unfold RefList.cntLess
  set l := indices.takeWhile (fun x => decide (x < j)) with hl
  have hsub : l.Sublist indices := List.takeWhile_sublist _
  have hnd' : l.Nodup := hsub.nodup hnd
  have hmem : ∀ x ∈ l, x < j := by
    intro x hx
    simpa using List.mem_takeWhile_imp hx
  have hsubset : l.toFinset ⊆ Finset.range j := by
    intro x hx
    simp only [List.mem_toFinset] at hx
    simpa using hmem x hx
  calc l.length = l.toFinset.card := (List.toFinset_card_of_nodup hnd').symm
    _ ≤ (Finset.range j).card := Finset.card_le_card hsubset
    _ = j := Finset.card_range j

theorem cntLess_single (i j : Nat) :
    RefList.cntLess [i] j = if i < j then 1 else 0 := by
  unfold RefList.cntLess
  by_cases h : i < j <;> simp [List.takeWhile_cons, h]

theorem cntLess_pair (i j : Nat) :
    RefList.cntLess [i, i] j = if i < j then 2 else 0 := by
  unfold RefList.cntLess
  by_cases h : i < j <;> simp [List.takeWhile_cons, h]

/-! ### Characterization of the renumbering pass -/

/-- When every pointer still in the list refers to a valid cell with an
`Index` origin whose `take_while` count does not exceed it, the renumbering
pass succeeds, rewriting each such cell's origin to `Index (j - cntLess)` and
leaving every other cell untouched. -/
theorem renumberPass_ok (indices : List Nat) :
    ∀ (ptrs : List Nat) (store : List (Cell T)),
      ptrs.Nodup →
      (∀ p ∈ ptrs, ∃ c : Cell T, store[p]? = some c ∧
        ∃ j, c.entry.index = .Index j ∧ RefList.cntLess indices j ≤ j) →
      ∃ store', RefList.renumberPass indices ptrs store = .ok store' ∧
        store'.length = store.length ∧
        (∀ q, q ∉ ptrs → store'[q]? = store[q]?) ∧
        (∀ p, p ∈ ptrs → ∀ c : Cell T, store[p]? = some c →
          ∀ j, c.entry.index = .Index j →
          store'[p]? = some
            { entry := { val := c.entry.val,
                         index := .Index (j - RefList.cntLess indices j) },
              rc := c.rc }) := by
  intro ptrs
  induction ptrs with
  | nil =>
      intro store _ _
      exact ⟨store, renumberPass_nil .., rfl, fun _ _ => rfl, fun p hp => absurd hp (by simp)⟩
  | cons p ps ih =>
      intro store hnd hcells
      obtain ⟨c, hc, j, hj, hcnt⟩ := hcells p (List.mem_cons_self ..)
      have hstep : RefList.renumberStep indices store p =
          some (store.set p
            { entry := { val := c.entry.val,
                         index := .Index (j - RefList.cntLess indices j) },
              rc := c.rc }) := by
        unfold RefList.renumberStep
        simp [hc, hj, hcnt]
      have hpnot : p ∉ ps := (List.nodup_cons.mp hnd).1
      have hplt : p < store.length := (List.getElem?_eq_some_iff.mp hc).1
      set c' : Cell T :=
        { entry := { val := c.entry.val,
                     index := .Index (j - RefList.cntLess indices j) },
          rc := c.rc } with hc'
      set store1 : List (Cell T) := store.set p c' with hstore1
      have hget1 : store1[p]? = some c' := by
        rw [hstore1]; exact List.getElem?_set_self hplt
      have hget1ne : ∀ q, q ≠ p → store1[q]? = store[q]? := by
        intro q hq
        rw [hstore1]; exact List.getElem?_set_ne (fun he => hq he.symm)
      obtain ⟨store', hrun, hlen, hframe, hmain⟩ :=
        ih store1 (List.nodup_cons.mp hnd).2
          (by
            intro q hq
            have hqne : q ≠ p := fun he => hpnot (he ▸ hq)
            obtain ⟨cq, hcq, jq, hjq, hcntq⟩ := hcells q (List.mem_cons_of_mem _ hq)
            exact ⟨cq, (hget1ne q hqne).trans hcq, jq, hjq, hcntq⟩)
      refine ⟨store', ?_, ?_, ?_, ?_⟩
      · rw [renumberPass_cons, hstep]
        exact hrun
      · rw [hlen, hstore1, List.length_set]
      · intro q hq
        have hqp : q ≠ p := fun he => hq (he ▸ List.mem_cons_self ..)
        have hqps : q ∉ ps := fun hm => hq (List.mem_cons_of_mem _ hm)
        rw [hframe q hqps, hget1ne q hqp]
      · intro q hq cq hcq jq hjq
        rcases List.mem_cons.mp hq with he | hm
        · subst he
          have hceq : cq = c := by rw [hc] at hcq; exact (Option.some_inj.mp hcq).symm
          subst hceq
          have hje : jq = j := by
            rw [hj] at hjq
            cases hjq; rfl
          subst hje
          rw [hframe q hpnot, hget1]
        · have hqne : q ≠ p := fun he => hpnot (he ▸ hm)
          exact hmain q hm cq ((hget1ne q hqne).trans hcq) jq hjq

/-! ### Lemmas about the removal pass -/

theorem removeStep_ok {s : RefListState T} {i p : Nat}
    (h : s.items[i]? = some p) :
    RefList.removeStep s i = .ok
      { store := setCell s.store p
          (fun c => { entry := { val := c.entry.val, index := .Detached },
                      rc := c.rc - 1 }),
        items := s.items.eraseIdx i } := by
  unfold RefList.removeStep
  rw [h]

theorem removeStep_ok_inv {s s' : RefListState T} {i : Nat}
    (h : RefList.removeStep s i = .ok s') :
    ∃ p, s.items[i]? = some p ∧
      s' = { store := setCell s.store p
               (fun c => { entry := { val := c.entry.val, index := .Detached },
                           rc := c.rc - 1 }),
             items := s.items.eraseIdx i } := by
  unfold RefList.removeStep at h
  cases hip : s.items[i]? with
  | none => rw [hip] at h; exact absurd h (by simp)
  | some p =>
      rw [hip] at h
      exact ⟨p, rfl, (Except.ok.injEq .. ▸ h).symm⟩

theorem not_mem_eraseIdx_of_getElem {l : List Nat} {i p : Nat}
    (hnd : l.Nodup) (h : l[i]? = some p) : p ∉ l.eraseIdx i := by
  intro hm
  obtain ⟨k, hk⟩ := List.mem_iff_getElem?.mp hm
  rw [List.getElem?_eraseIdx] at hk
  by_cases hki : k < i
  · rw [if_pos hki] at hk
    have hkl : k < l.length := (List.getElem?_eq_some_iff.mp hk).1
    have : k = i := List.getElem?_inj hkl hnd (hk.trans h.symm)
    omega
  · rw [if_neg hki] at hk
    have hkl : k + 1 < l.length := (List.getElem?_eq_some_iff.mp hk).1
    have : k + 1 = i := List.getElem?_inj hkl hnd (hk.trans h.symm)
    omega

theorem mem_eraseIdx_of_getElem_ne {l : List Nat} {i pos p : Nat}
    (hpos : pos ≠ i) (h : l[pos]? = some p) : p ∈ l.eraseIdx i := by
  rcases Nat.lt_or_ge pos i with hlt | hge
  · exact List.mem_iff_getElem?.mpr ⟨pos, by rw [List.getElem?_eraseIdx, if_pos hlt]; exact h⟩
  · have hgt : i < pos := by omega
    refine List.mem_iff_getElem?.mpr ⟨pos - 1, ?_⟩
    rw [List.getElem?_eraseIdx, if_neg (by omega)]
    have : pos - 1 + 1 = pos := by omega
    rw [this]
    exact h

theorem WF.allIndexed {s : RefListState T} (h : WF s) : AllIndexed s := by
  refine ⟨h.1, fun p hp => ?_⟩
  obtain ⟨pos, hpos⟩ := List.mem_iff_getElem?.mp hp
  obtain ⟨c, hc, hci⟩ := h.2 pos p hpos
  exact ⟨c, hc, pos, hci⟩

theorem AllIndexed_removeStep {s s' : RefListState T} {i : Nat}
    (h : AllIndexed s) (hstep : RefList.removeStep s i = .ok s') :
    AllIndexed s' := by
  obtain ⟨p, hip, rfl⟩ := removeStep_ok_inv hstep
  refine ⟨List.Nodup.eraseIdx i h.1, fun q hq => ?_⟩
  have hqmem : q ∈ s.items := List.mem_of_mem_eraseIdx hq
  have hqp : q ≠ p := fun he => not_mem_eraseIdx_of_getElem h.1 hip (he ▸ hq)
  obtain ⟨c, hc, j, hj⟩ := h.2 q hqmem
  exact ⟨c, (setCell_getElem_ne _ _ _ hqp).trans hc, j, hj⟩

theorem AllIndexed_removePass {indices : List Nat} :
    ∀ {s s' : RefListState T}, AllIndexed s →
      RefList.removePass s indices = .ok s' → AllIndexed s' := by
  induction indices with
  | nil =>
      intro s s' h hrun
      rw [removePass_nil] at hrun
      cases hrun
      exact h
  | cons i is ih =>
      intro s s' h hrun
      rw [removePass_cons] at hrun
      cases hstep : RefList.removeStep s i with
      | ok s1 =>
          rw [hstep] at hrun
          exact ih (AllIndexed_removeStep h hstep) hrun
      | error e => rw [hstep] at hrun; exact absurd hrun (by simp)

/-! ### Committed singleton deletion, fully characterized -/

/-- Committing the batch `[i]` on a well-formed list with `i` in bounds:
the element at position `i` is removed and detached, every survivor keeps its
relative order, and its new order is its old position minus one exactly when
the deleted position was below it. -/
theorem delete_one_ok {s : RefListState T} {i : Nat} (hWF : WF s)
    (hi : i < s.items.length) :
    ∃ s', RefList.done_delete s [i] = .ok s' ∧
      s'.items = s.items.eraseIdx i ∧
      s'.store.length = s.store.length ∧
      (∀ pos q, pos ≠ i → s.items[pos]? = some q →
        orderOf s' q = some (pos - (if i < pos then 1 else 0))) ∧
      (∀ q, s.items[i]? = some q → orderOf s' q = none) := by
  have hp : s.items[i]? = some s.items[i] := List.getElem?_eq_getElem hi
  set p := s.items[i] with hpdef
  set s1 : RefListState T :=
    { store := setCell s.store p
        (fun c => { entry := { val := c.entry.val, index := .Detached },
                    rc := c.rc - 1 }),
      items := s.items.eraseIdx i } with hs1
  have hrp : RefList.removePass s [i] = .ok s1 := by
    rw [removePass_cons, removeStep_ok hp]
    exact removePass_nil s1
  have hpnot : p ∉ s1.items := not_mem_eraseIdx_of_getElem hWF.1 hp
  have hstore1ne : ∀ q, q ≠ p → s1.store[q]? = s.store[q]? := by
    intro q hq
    exact setCell_getElem_ne _ _ _ hq
  obtain ⟨store', hrun, hlen, hframe, hmain⟩ :=
    renumberPass_ok [i] s1.items s1.store (List.Nodup.eraseIdx i hWF.1)
      (by
        intro q hq
        have hqmem : q ∈ s.items := List.mem_of_mem_eraseIdx hq
        have hqp : q ≠ p := fun he => hpnot (he ▸ hq)
        obtain ⟨pos, hpos⟩ := List.mem_iff_getElem?.mp hqmem
        obtain ⟨c, hc, hci⟩ := hWF.2 pos q hpos
        refine ⟨c, (hstore1ne q hqp).trans hc, pos, hci, ?_⟩
        rw [cntLess_single]
        by_cases hip : i < pos
        · rw [if_pos hip]; omega
        · rw [if_neg hip]; omega)
  refine ⟨{ s1 with store := store' }, ?_, rfl, ?_, ?_, ?_⟩
  · unfold RefList.done_delete
    rw [hrp]
    simp only [hrun]
  · rw [hlen, hs1, setCell_length]
  · intro pos q hpos hq
    have hqp : q ≠ p := by
      intro he
      have hposl : pos < s.items.length := (List.getElem?_eq_some_iff.mp hq).1
      exact hpos (List.getElem?_inj hposl hWF.1 ((he ▸ hq).trans hp.symm))
    have hqmem : q ∈ s1.items := mem_eraseIdx_of_getElem_ne hpos hq
    obtain ⟨c, hc, hci⟩ := hWF.2 pos q hq
    have hq1 : s1.store[q]? = some c := (hstore1ne q hqp).trans hc
    have := hmain q hqmem c hq1 pos hci
    unfold orderOf
    rw [this]
    simp [Entry.order, cntLess_single]
  · intro q hq
    have hqp : q = p := (Option.some_inj.mp (hp.symm.trans hq)).symm
    subst hqp
    have hfp : store'[p]? = s1.store[p]? := hframe p hpnot
    unfold orderOf
    rw [hfp]
    cases hcq : s.store[p]? with
    | none =>
        have : s1.store[p]? = none := by
          rw [hs1]
          unfold setCell
          rw [hcq]
          exact hcq
        rw [this]
    | some c =>
        have : s1.store[p]? = some
            { entry := { val := c.entry.val, index := .Detached }, rc := c.rc - 1 } := by
          rw [hs1]
          exact setCell_getElem_eq hcq _
        rw [this]
        simp [Entry.order]

/-! ### Order observations and well-formedness preservation -/

theorem orderOf_eq_some_iff {s : RefListState T} {p j : Nat} :
    orderOf s p = some j ↔
      ∃ c : Cell T, s.store[p]? = some c ∧ c.entry.index = .Index j := by
  unfold orderOf
  cases hc : s.store[p]? with
  | none => simp
  | some c =>
      cases hidx : c.entry.index with
      | Index k => simp [Entry.order, hidx]
      | Detached => simp [Entry.order, hidx]

theorem orderOf_eq_none_of_detached {s : RefListState T} {p : Nat} {c : Cell T}
    (hc : s.store[p]? = some c) (hd : c.entry.index = .Detached) :
    orderOf s p = none := by
  simp [orderOf, hc, Entry.order, hd]

theorem mem_items_lt_store {s : RefListState T} (h : WF s) :
    ∀ p ∈ s.items, p < s.store.length := by
  intro p hp
  obtain ⟨pos, hpos⟩ := List.mem_iff_getElem?.mp hp
  obtain ⟨c, hc, _⟩ := h.2 pos p hpos
  exact (List.getElem?_eq_some_iff.mp hc).1

theorem WF_new : WF (RefList.new T) := by
  constructor
  · exact List.nodup_nil
  · intro pos p h
    simp [RefList.new] at h

theorem WF_push {s : RefListState T} (h : WF s) (t : T) :
    WF (RefList.push s t).1 := by
  constructor
  · have hnotin : s.store.length ∉ s.items := by
      intro hmem
      exact absurd (mem_items_lt_store h _ hmem) (by omega)
    simpa [RefList.push, List.nodup_append] using ⟨h.1, hnotin⟩
  · intro pos p hpos
    simp only [RefList.push] at hpos ⊢
    rcases Nat.lt_trichotomy pos s.items.length with hlt | heq | hgt
    · rw [List.getElem?_append_left hlt] at hpos
      obtain ⟨c, hc, hci⟩ := h.2 pos p hpos
      have hplt : p < s.store.length := (List.getElem?_eq_some_iff.mp hc).1
      exact ⟨c, (List.getElem?_append_left hplt).trans hc, hci⟩
    · subst heq
      rw [List.getElem?_concat_length] at hpos
      cases hpos
      exact ⟨_, List.getElem?_concat_length .., rfl⟩
    · rw [List.getElem?_eq_none (by simp; omega)] at hpos
      cases hpos

/-- Updating a cell in a way that keeps its entry (only the reference count
may change) preserves well-formedness. -/
theorem WF_setCell_entry {s : RefListState T} (h : WF s) (p : Nat)
    (f : Cell T → Cell T) (hf : ∀ c, (f c).entry = c.entry) :
    WF { s with store := setCell s.store p f } := by
  refine ⟨h.1, fun pos q hq => ?_⟩
  obtain ⟨c, hc, hci⟩ := h.2 pos q hq
  by_cases hqp : q = p
  · subst hqp
    exact ⟨f c, setCell_getElem_eq hc f, by rw [hf c]; exact hci⟩
  · exact ⟨c, (setCell_getElem_ne _ _ _ hqp).trans hc, hci⟩

theorem WF_dropHandle {s : RefListState T} (h : WF s) (p : Nat) :
    WF (dropHandle s p) :=
  WF_setCell_entry h p _ (fun _ => rfl)

theorem WF_cloneHandle {s : RefListState T} (h : WF s) (p : Nat) :
    WF (cloneHandle s p) :=
  WF_setCell_entry h p _ (fun _ => rfl)

theorem WF_from_slice (l : List T) : WF (RefList.from_slice l) := by
  unfold RefList.from_slice
  have main : ∀ (ts : List T) (s : RefListState T), WF s →
      WF (ts.foldl (fun s t => let r := RefList.push s t; dropHandle r.1 r.2) s) := by
    intro ts
    induction ts with
    | nil => intro s hs; exact hs
    | cons t ts ih =>
        intro s hs
        exact ih _ (WF_dropHandle (WF_push hs t) _)
  exact main l _ WF_new

theorem removeStep_err {s : RefListState T} {i : Nat}
    (h : s.items.length ≤ i) : RefList.removeStep s i = .error s := by
  unfold RefList.removeStep
  rw [List.getElem?_eq_none h]

theorem done_delete_single_err {s : RefListState T} {i : Nat}
    (h : s.items.length ≤ i) : RefList.done_delete s [i] = .error s := by
  unfold RefList.done_delete
  rw [removePass_cons, removeStep_err h]

/-- A successful singleton deletion preserves well-formedness: every entry
still stored at a position carries exactly that position as its origin. -/
theorem WF_delete_one {s s' : RefListState T} {i : Nat} (h : WF s)
    (hok : RefList.done_delete s [i] = .ok s') : WF s' := by
  by_cases hi : i < s.items.length
  · obtain ⟨s'', hrun, hitems, _, hsurv, _⟩ := delete_one_ok h hi
    have hs' : s' = s'' := by
      rw [hok] at hrun
      exact Except.ok.inj hrun
    subst hs'
    refine ⟨hitems ▸ List.Nodup.eraseIdx i h.1, fun pos q hq => ?_⟩
    rw [hitems] at hq
    rw [List.getElem?_eraseIdx] at hq
    by_cases hlt : pos < i
    · rw [if_pos hlt] at hq
      have := hsurv pos q (by omega) hq
      rw [if_neg (by omega), Nat.sub_zero] at this
      exact orderOf_eq_some_iff.mp this
    · rw [if_neg hlt] at hq
      have := hsurv (pos + 1) q (by omega) hq
      rw [if_pos (by omega)] at this
      have harith : pos + 1 - 1 = pos := by omega
      rw [harith] at this
      exact orderOf_eq_some_iff.mp this
  · rw [done_delete_single_err (by omega)] at hok
    exact absurd hok (by simp)

/-- The list states reachable through the public interface when every
committed deletion batch is a singleton (`delete_one`, `delete(&[i])`, or a
transaction with one `push`). -/
inductive Reachable {T : Type} : RefListState T → Prop where
  | new : Reachable (RefList.new T)
  | from_slice (l : List T) : Reachable (RefList.from_slice l)
  | push {s : RefListState T} (t : T) : Reachable s → Reachable (RefList.push s t).1
  | clone {s : RefListState T} (p : Nat) : Reachable s → Reachable (cloneHandle s p)
  | drop {s : RefListState T} (p : Nat) : Reachable s → Reachable (dropHandle s p)
  | delete_one {s s' : RefListState T} (i : Nat) :
      Reachable s → RefList.done_delete s [i] = .ok s' → Reachable s'

theorem Reachable.wf {s : RefListState T} (h : Reachable s) : WF s := by
  induction h with
  | new => exact WF_new
  | from_slice l => exact WF_from_slice l
  | push t _ ih => exact WF_push ih t
  | clone p _ ih => exact WF_cloneHandle ih p
  | drop p _ ih => exact WF_dropHandle ih p
  | delete_one i _ hok ih => exact WF_delete_one ih hok

/-! ### Push sequencing -/

/-- A sequence of pushes with no intervening deletion, returning the final
state together with the handles in push order. -/
def pushAll (s : RefListState T) : List T → RefListState T × List Nat
  | [] => (s, [])
  | t :: ts =>
      let r := RefList.push s t
      let rest := pushAll r.1 ts
      (rest.1, r.2 :: rest.2)

theorem push_len (s : RefListState T) (t : T) :
    RefList.len (RefList.push s t).1 = RefList.len s + 1 := by
  simp [RefList.push, RefList.len]

theorem push_appends (s : RefListState T) (t : T) :
    (RefList.push s t).1.items[s.items.length]? = some (RefList.push s t).2 := by
  simp only [RefList.push]
  exact List.getElem?_concat_length ..

theorem push_order (s : RefListState T) (t : T) :
    orderOf (RefList.push s t).1 (RefList.push s t).2 = some s.items.length := by
  simp only [RefList.push, orderOf]
  rw [List.getElem?_concat_length]
  rfl

theorem push_val (s : RefListState T) (t : T) :
    valOf (RefList.push s t).1 (RefList.push s t).2 = some t := by
  simp only [RefList.push, valOf]
  rw [List.getElem?_concat_length]
  rfl

theorem pushAll_store_extends (ts : List T) :
    ∀ s : RefListState T, ∃ ext, (pushAll s ts).1.store = s.store ++ ext := by
  induction ts with
  | nil => intro s; exact ⟨[], by simp [pushAll]⟩
  | cons t ts ih =>
      intro s
      obtain ⟨ext, hext⟩ := ih (RefList.push s t).1
      refine ⟨{ entry := Entry.new t s.items.length, rc := 2 } :: ext, ?_⟩
      simp only [pushAll]
      rw [hext]
      simp [RefList.push]

theorem orderOf_store_append {s : RefListState T} {p : Nat}
    (hp : p < s.store.length) (ext : List (Cell T)) (items' : List Nat) :
    orderOf { store := s.store ++ ext, items := items' } p = orderOf s p := by
  unfold orderOf
  rw [List.getElem?_append_left hp]

theorem pushAll_orders (ts : List T) :
    ∀ s : RefListState T,
      (pushAll s ts).2.length = ts.length ∧
      ∀ i p, (pushAll s ts).2[i]? = some p →
        orderOf (pushAll s ts).1 p = some (s.items.length + i) := by
  induction ts with
  | nil =>
      intro s
      refine ⟨rfl, fun i p h => ?_⟩
      simp [pushAll] at h
  | cons t ts ih =>
      intro s
      obtain ⟨ihlen, ihord⟩ := ih (RefList.push s t).1
      constructor
      · simp [pushAll, ihlen]
      · intro i p h
        simp only [pushAll] at h ⊢
        match i, h with
        | 0, h =>
            have hp : (RefList.push s t).2 = p := by
              simpa using h
            subst hp
            obtain ⟨ext, hext⟩ := pushAll_store_extends ts (RefList.push s t).1
            have hplt : (RefList.push s t).2 < (RefList.push s t).1.store.length := by
              simp [RefList.push]
            have : orderOf (pushAll (RefList.push s t).1 ts).1 (RefList.push s t).2 =
                orderOf (RefList.push s t).1 (RefList.push s t).2 := by
              have hst : (pushAll (RefList.push s t).1 ts).1 =
                  { store := (RefList.push s t).1.store ++ ext,
                    items := (pushAll (RefList.push s t).1 ts).1.items } := by
                cases hps : (pushAll (RefList.push s t).1 ts).1 with
                | mk st it =>
                    congr 1
                    rw [← hext, hps]
              rw [hst]
              exact orderOf_store_append hplt ext _
            rw [this, push_order]
            simp
        | (i + 1), h =>
            have h' : (pushAll (RefList.push s t).1 ts).2[i]? = some p := by
              simpa using h
            have := ihord i p h'
            rw [this]
            have : (RefList.push s t).1.items.length = s.items.length + 1 := by
              simp [RefList.push]
            rw [this]
            congr 1
            omega

/-! ### Faulting deletions apply a prefix of the batch -/

/-- When the removal loop has applied the indices of `good` successfully and
then hits an out-of-bounds index, the whole commit faults, and the observable
state is exactly the state after the removals of `good`: earlier removals stay
applied (shrunk list, detached entries), no renumbering has happened. -/
theorem done_delete_fault {s s1 : RefListState T} {good : List Nat}
    {bad : Nat} {rest : List Nat}
    (hgood : RefList.removePass s good = .ok s1)
    (hbad : s1.items.length ≤ bad) :
    RefList.done_delete s (good ++ bad :: rest) = .error s1 := by
  have hcons : RefList.removePass s1 (bad :: rest) = .error s1 := by
    rw [removePass_cons, removeStep_err hbad]
  have hpass : RefList.removePass s (good ++ bad :: rest) = .error s1 := by
    rw [removePass_append, hgood]
    exact hcons
  unfold RefList.done_delete
  rw [hpass]

/-! ### Committed duplicate-pair deletion, fully characterized -/

/-- Committing the batch `[i, i]` on a well-formed list removes TWO distinct
elements: the ones originally at `i` and at `i + 1` (the second removal acts
on the already-shifted vector).  Both become detached, the length drops by
two, and every survivor's order drops by two exactly when `i` was below it. -/
theorem delete_pair_ok {s : RefListState T} {i : Nat} (hWF : WF s)
    (hi : i + 1 < s.items.length) :
    ∃ s', RefList.done_delete s [i, i] = .ok s' ∧
      RefList.len s' = RefList.len s - 2 ∧
      s'.items = (s.items.eraseIdx i).eraseIdx i ∧
      (∀ pos q, pos ≠ i → pos ≠ i + 1 → s.items[pos]? = some q →
        orderOf s' q = some (pos - (if i < pos then 2 else 0))) ∧
      (∀ q, s.items[i]? = some q ∨ s.items[i+1]? = some q →
        orderOf s' q = none) := by
  have hp1 : s.items[i]? = some s.items[i] := List.getElem?_eq_getElem (by omega)
  have hp2 : s.items[i+1]? = some s.items[i+1] := List.getElem?_eq_getElem hi
  set p1 := s.items[i] with hp1def
  set p2 := s.items[i+1] with hp2def
  have hp12 : p1 ≠ p2 := by
    intro he
    have : i = i + 1 := List.getElem?_inj (by omega) hWF.1 (hp1.trans (he ▸ hp2.symm))
    omega
  set detach : Cell T → Cell T :=
    fun c => { entry := { val := c.entry.val, index := .Detached }, rc := c.rc - 1 }
    with hdetach
  set s1 : RefListState T :=
    { store := setCell s.store p1 detach, items := s.items.eraseIdx i } with hs1
  have hstep1 : RefList.removeStep s i = .ok s1 := removeStep_ok hp1
  have hs1i : s1.items[i]? = some p2 := by
    rw [hs1]
    show (s.items.eraseIdx i)[i]? = some p2
    rw [List.getElem?_eraseIdx, if_neg (by omega)]
    exact hp2
  set s2 : RefListState T :=
    { store := setCell s1.store p2 detach, items := s1.items.eraseIdx i } with hs2
  have hstep2 : RefList.removeStep s1 i = .ok s2 := removeStep_ok hs1i
  have hrp1 : RefList.removePass s1 [i] = .ok s2 := by
    rw [removePass_cons, hstep2]
    exact removePass_nil s2
  have hrp : RefList.removePass s [i, i] = .ok s2 := by
    rw [removePass_cons, hstep1]
    exact hrp1
  have hnd1 : s1.items.Nodup := List.Nodup.eraseIdx i hWF.1
  have hnd2 : s2.items.Nodup := List.Nodup.eraseIdx i hnd1
  have hp1not1 : p1 ∉ s1.items := not_mem_eraseIdx_of_getElem hWF.1 hp1
  have hp2not2 : p2 ∉ s2.items := not_mem_eraseIdx_of_getElem hnd1 hs1i
  have hp1not2 : p1 ∉ s2.items := fun hm => hp1not1 (List.mem_of_mem_eraseIdx hm)
  have hs2ne : ∀ q, q ≠ p1 → q ≠ p2 → s2.store[q]? = s.store[q]? := by
    intro q hq1 hq2
    rw [hs2]
    show (setCell s1.store p2 detach)[q]? = s.store[q]?
    rw [setCell_getElem_ne _ _ _ hq2, hs1]
    exact setCell_getElem_ne _ _ _ hq1
  have hmem2 : ∀ pos q, pos ≠ i → pos ≠ i + 1 → s.items[pos]? = some q →
      q ∈ s2.items := by
    intro pos q hpi hpi1 hq
    rcases Nat.lt_or_ge pos i with hlt | hge
    · have h1 : s1.items[pos]? = some q := by
        rw [hs1]
        show (s.items.eraseIdx i)[pos]? = some q
        rw [List.getElem?_eraseIdx, if_pos hlt]
        exact hq
      rw [hs2]
      exact mem_eraseIdx_of_getElem_ne hpi h1
    · have hgt : i + 1 < pos := by omega
      have h1 : s1.items[pos - 1]? = some q := by
        rw [hs1]
        show (s.items.eraseIdx i)[pos - 1]? = some q
        rw [List.getElem?_eraseIdx, if_neg (by omega)]
        have : pos - 1 + 1 = pos := by omega
        rw [this]
        exact hq
      rw [hs2]
      exact mem_eraseIdx_of_getElem_ne (by omega) h1
  have hposne : ∀ pos q, s.items[pos]? = some q → q ≠ p1 → q ≠ p2 →
      pos ≠ i ∧ pos ≠ i + 1 := by
    intro pos q hq hq1 hq2
    constructor
    · intro he
      exact hq1 (Option.some_inj.mp ((he ▸ hq).symm.trans hp1).symm).symm
    · intro he
      exact hq2 (Option.some_inj.mp ((he ▸ hq).symm.trans hp2).symm).symm
  obtain ⟨store', hrun, hlen, hframe, hmain⟩ :=
    renumberPass_ok [i, i] s2.items s2.store hnd2
      (by
        intro q hq
        have hq1 : q ≠ p1 := fun he => hp1not2 (he ▸ hq)
        have hq2 : q ≠ p2 := fun he => hp2not2 (he ▸ hq)
        have hqmem : q ∈ s.items :=
          List.mem_of_mem_eraseIdx (List.mem_of_mem_eraseIdx hq)
        obtain ⟨pos, hpos⟩ := List.mem_iff_getElem?.mp hqmem
        obtain ⟨hpi, hpi1⟩ := hposne pos q hpos hq1 hq2
        obtain ⟨c, hc, hci⟩ := hWF.2 pos q hpos
        refine ⟨c, (hs2ne q hq1 hq2).trans hc, pos, hci, ?_⟩
        rw [cntLess_pair]
        by_cases hip : i < pos
        · rw [if_pos hip]; omega
        · rw [if_neg hip]; omega)
  refine ⟨{ s2 with store := store' }, ?_, ?_, rfl, ?_, ?_⟩
  · unfold RefList.done_delete
    rw [hrp]
    simp only [hrun]
  · show s2.items.length = s.items.length - 2
    have h1 : (s.items.eraseIdx i).length = s.items.length - 1 := by
      rw [List.length_eraseIdx, if_pos (by omega)]
    show ((s.items.eraseIdx i).eraseIdx i).length = s.items.length - 2
    rw [List.length_eraseIdx, h1, if_pos (by omega)]
    omega
  · intro pos q hpi hpi1 hq
    have hq1 : q ≠ p1 := by
      intro he
      have hposl : pos < s.items.length := (List.getElem?_eq_some_iff.mp hq).1
      exact hpi (List.getElem?_inj hposl hWF.1 ((he ▸ hq).trans hp1.symm))
    have hq2 : q ≠ p2 := by
      intro he
      have hposl : pos < s.items.length := (List.getElem?_eq_some_iff.mp hq).1
      exact hpi1 (List.getElem?_inj hposl hWF.1 ((he ▸ hq).trans hp2.symm))
    have hqmem : q ∈ s2.items := hmem2 pos q hpi hpi1 hq
    obtain ⟨c, hc, hci⟩ := hWF.2 pos q hq
    have hq2c : s2.store[q]? = some c := (hs2ne q hq1 hq2).trans hc
    have := hmain q hqmem c hq2c pos hci
    unfold orderOf
    rw [this]
    simp [Entry.order, cntLess_pair]
  · intro q hq
    rcases hq with hq | hq
    · have he : q = p1 := (Option.some_inj.mp (hp1.symm.trans hq)).symm
      subst he
      have hfp : store'[p1]? = s2.store[p1]? := hframe p1 hp1not2
      obtain ⟨c, hc, _⟩ := hWF.2 i p1 hp1
      have h1 : s1.store[p1]? = some (detach c) := by
        rw [hs1]
        exact setCell_getElem_eq hc detach
      have h2 : s2.store[p1]? = some (detach c) := by
        rw [hs2]
        show (setCell s1.store p2 detach)[p1]? = some (detach c)
        rw [setCell_getElem_ne _ _ _ hp12]
        exact h1
      have h3 : ({ s2 with store := store' } : RefListState T).store[p1]? =
          some (detach c) := by
        show store'[p1]? = some (detach c)
        rw [hfp]
        exact h2
      exact orderOf_eq_none_of_detached h3 rfl
    · have he : q = p2 := (Option.some_inj.mp (hp2.symm.trans hq)).symm
      subst he
      have hfp : store'[p2]? = s2.store[p2]? := hframe p2 hp2not2
      obtain ⟨c, hc, _⟩ := hWF.2 (i+1) p2 hp2
      have h1 : s1.store[p2]? = some c := by
        rw [hs1]
        show (setCell s.store p1 detach)[p2]? = some c
        rw [setCell_getElem_ne _ _ _ (fun he => hp12 he.symm)]
        exact hc
      have h2 : s2.store[p2]? = some (detach c) := by
        rw [hs2]
        exact setCell_getElem_eq h1 detach
      have h3 : ({ s2 with store := store' } : RefListState T).store[p2]? =
          some (detach c) := by
        show store'[p2]? = some (detach c)
        rw [hfp]
        exact h2
      exact orderOf_eq_none_of_detached h3 rfl

/-! ### Permanence of detachment -/

/-- Did the operation complete without a fault? -/
def isCommitted (e : Except (RefListState T) (RefListState T)) : Bool :=
  match e with
  | .ok _ => true
  | .error _ => false

/-- One operation of the public interface acting on the list or a handle. -/
inductive Op (T : Type) where
  | push (t : T)
  | get (idx : Nat)
  | delete (indices : List Nat)
  | clone (p : Nat)
  | drop (p : Nat)

/-- Apply one operation, observing the post-state (for a faulting deletion,
the state at the fault, which outstanding handles still observe). -/
def applyOp (s : RefListState T) : Op T → RefListState T
  | .push t => (RefList.push s t).1
  | .get idx => (RefList.get s idx).2
  | .delete indices => stateOf (RefList.done_delete s indices)
  | .clone p => cloneHandle s p
  | .drop p => dropHandle s p

def applyOps (s : RefListState T) (ops : List (Op T)) : RefListState T :=
  ops.foldl applyOp s

/-- The entry behind pointer `p` exists and is detached. -/
def DetachedAt (s : RefListState T) (p : Nat) : Prop :=
  ∃ c : Cell T, s.store[p]? = some c ∧ c.entry.index = .Detached

theorem DetachedAt_setCell {s s' : RefListState T} {p : Nat}
    (h : DetachedAt s p) (q : Nat) (f : Cell T → Cell T)
    (hf : ∀ c : Cell T, (f c).entry.index = c.entry.index ∨
      (f c).entry.index = .Detached)
    (hs' : s'.store = setCell s.store q f) :
    DetachedAt s' p := by
  obtain ⟨c, hc, hd⟩ := h
  rw [DetachedAt, hs']
  by_cases hpq : p = q
  · subst hpq
    refine ⟨f c, setCell_getElem_eq hc f, ?_⟩
    rcases hf c with he | he
    · rw [he]; exact hd
    · exact he
  · exact ⟨c, (setCell_getElem_ne _ _ _ hpq).trans hc, hd⟩

theorem DetachedAt_removeStep {s s' : RefListState T} {i : Nat} {p : Nat}
    (h : DetachedAt s p)
    (hstep : RefList.removeStep s i = .ok s' ∨ RefList.removeStep s i = .error s') :
    DetachedAt s' p := by
  rcases hstep with hstep | hstep
  · obtain ⟨q, _, rfl⟩ := removeStep_ok_inv hstep
    exact DetachedAt_setCell h q _ (fun c => Or.inr rfl) rfl
  · unfold RefList.removeStep at hstep
    cases hiq : s.items[i]? with
    | none =>
        rw [hiq] at hstep
        cases hstep
        exact h
    | some q => rw [hiq] at hstep; exact absurd hstep (by simp)

theorem DetachedAt_removePass {indices : List Nat} :
    ∀ {s s' : RefListState T} {p : Nat}, DetachedAt s p →
      (RefList.removePass s indices = .ok s' ∨
        RefList.removePass s indices = .error s') →
      DetachedAt s' p := by
  induction indices with
  | nil =>
      intro s s' p h hrun
      rw [removePass_nil] at hrun
      rcases hrun with hrun | hrun
      · cases hrun; exact h
      · exact absurd hrun (by simp)
  | cons i is ih =>
      intro s s' p h hrun
      rw [removePass_cons] at hrun
      cases hstep : RefList.removeStep s i with
      | ok s1 =>
          rw [hstep] at hrun
          exact ih (DetachedAt_removeStep h (Or.inl hstep)) hrun
      | error e =>
          rw [hstep] at hrun
          have he : s' = e := by
            rcases hrun with hrun | hrun
            · exact absurd hrun (by simp)
            · exact (Except.error.inj hrun).symm
          subst he
          exact DetachedAt_removeStep h (Or.inr hstep)

theorem detachedStore_renumberStep {indices : List Nat}
    {store st : List (Cell T)} {q : Nat}
    (hstep : RefList.renumberStep indices store q = some st)
    {p : Nat} {c : Cell T} (hc : store[p]? = some c)
    (hd : c.entry.index = .Detached) :
    ∃ c' : Cell T, st[p]? = some c' ∧ c'.entry.index = .Detached := by
  unfold RefList.renumberStep at hstep
  cases hq : store[q]? with
  | none => rw [hq] at hstep; exact absurd hstep (by simp)
  | some cq =>
      simp only [hq] at hstep
      cases hidx : cq.entry.index with
      | Detached =>
          simp only [hidx] at hstep
          exact absurd hstep (by simp)
      | Index j =>
          simp only [hidx] at hstep
          have hpq : p ≠ q := by
            intro he
            subst he
            rw [hq] at hc
            cases hc
            rw [hidx] at hd
            exact absurd hd (by simp)
          by_cases hcnt : RefList.cntLess indices j ≤ j
          · rw [if_pos hcnt] at hstep
            cases hstep
            exact ⟨c, (List.getElem?_set_ne (fun he => hpq he.symm)).trans hc, hd⟩
          · rw [if_neg hcnt] at hstep
            exact absurd hstep (by simp)

theorem detachedStore_renumberPass {indices : List Nat} (ptrs : List Nat) :
    ∀ {store st : List (Cell T)} {p : Nat} {c : Cell T},
      store[p]? = some c → c.entry.index = .Detached →
      (RefList.renumberPass indices ptrs store = .ok st ∨
        RefList.renumberPass indices ptrs store = .error st) →
      ∃ c' : Cell T, st[p]? = some c' ∧ c'.entry.index = .Detached := by
  induction ptrs with
  | nil =>
      intro store st p c hc hd hrun
      rw [renumberPass_nil] at hrun
      rcases hrun with hrun | hrun
      · cases hrun; exact ⟨c, hc, hd⟩
      · exact absurd hrun (by simp)
  | cons q qs ih =>
      intro store st p c hc hd hrun
      rw [renumberPass_cons] at hrun
      cases hstep : RefList.renumberStep indices store q with
      | some st2 =>
          rw [hstep] at hrun
          obtain ⟨c', hc', hd'⟩ := detachedStore_renumberStep hstep hc hd
          exact ih hc' hd' hrun
      | none =>
          rw [hstep] at hrun
          have he : st = store := by
            rcases hrun with hrun | hrun
            · exact absurd hrun (by simp)
            · exact (Except.error.inj hrun).symm
          subst he
          exact ⟨c, hc, hd⟩

theorem DetachedAt_done_delete {s : RefListState T} {p : Nat}
    (h : DetachedAt s p) (indices : List Nat) :
    DetachedAt (stateOf (RefList.done_delete s indices)) p := by
  cases hrp : RefList.removePass s indices with
  | error e =>
      have hdd : RefList.done_delete s indices = .error e := by
        unfold RefList.done_delete
        rw [hrp]
      rw [hdd]
      exact DetachedAt_removePass h (Or.inr hrp)
  | ok s1 =>
      have h1 : DetachedAt s1 p := DetachedAt_removePass h (Or.inl hrp)
      obtain ⟨c, hc, hd⟩ := h1
      cases hrn : RefList.renumberPass indices s1.items s1.store with
      | error st =>
          have hdd : RefList.done_delete s indices = .error { s1 with store := st } := by
            unfold RefList.done_delete
            rw [hrp]
            simp only [hrn]
          rw [hdd]
          obtain ⟨c', hc', hd'⟩ :=
            detachedStore_renumberPass s1.items hc hd (Or.inr hrn)
          exact ⟨c', hc', hd'⟩
      | ok st =>
          have hdd : RefList.done_delete s indices = .ok { s1 with store := st } := by
            unfold RefList.done_delete
            rw [hrp]
            simp only [hrn]
          rw [hdd]
          obtain ⟨c', hc', hd'⟩ :=
            detachedStore_renumberPass s1.items hc hd (Or.inl hrn)
          exact ⟨c', hc', hd'⟩

theorem DetachedAt_applyOp {s : RefListState T} {p : Nat}
    (h : DetachedAt s p) (op : Op T) : DetachedAt (applyOp s op) p := by
  obtain ⟨c, hc, hd⟩ := h
  cases op with
  | push t =>
      have hplt : p < s.store.length := (List.getElem?_eq_some_iff.mp hc).1
      exact ⟨c, (List.getElem?_append_left hplt).trans hc, hd⟩
  | get idx =>
      cases hq : s.items[idx]? with
      | none =>
          have he : applyOp s (Op.get idx) = s := by
            simp [applyOp, RefList.get, hq]
          rw [he]
          exact ⟨c, hc, hd⟩
      | some q =>
          have he : applyOp s (Op.get idx) = cloneHandle s q := by
            simp [applyOp, RefList.get, hq]
          rw [he]
          exact DetachedAt_setCell ⟨c, hc, hd⟩ q
            (fun c => { c with rc := c.rc + 1 }) (fun _ => Or.inl rfl) rfl
  | delete indices => exact DetachedAt_done_delete ⟨c, hc, hd⟩ indices
  | clone q =>
      exact DetachedAt_setCell ⟨c, hc, hd⟩ q
        (fun c => { c with rc := c.rc + 1 }) (fun _ => Or.inl rfl) rfl
  | drop q =>
      exact DetachedAt_setCell ⟨c, hc, hd⟩ q
        (fun c => { c with rc := c.rc - 1 }) (fun _ => Or.inl rfl) rfl

theorem DetachedAt_applyOps {s : RefListState T} {p : Nat}
    (h : DetachedAt s p) (ops : List (Op T)) :
    DetachedAt (applyOps s ops) p := by
  induction ops generalizing s with
  | nil => exact h
  | cons op ops ih => exact ih (DetachedAt_applyOp h op)

instance instDecEqExcept {ε α : Type} [DecidableEq ε] [DecidableEq α] :
    DecidableEq (Except ε α)
  | .ok x, .ok y =>
      if h : x = y then .isTrue (congrArg Except.ok h)
      else .isFalse (fun he => h (Except.ok.inj he))
  | .ok _, .error _ => .isFalse (fun he => Except.noConfusion he)
  | .error _, .ok _ => .isFalse (fun he => Except.noConfusion he)
  | .error x, .error y =>
      if h : x = y then .isTrue (congrArg Except.error h)
      else .isFalse (fun he => h (Except.error.inj he))

/-! ### Claim C1 -/

/-- C1, counterexample.  The claim's own concrete scenario fails on the code:
pushing A,B,C,D (values 10,20,30,40) and committing the batch `[0, 2]` leaves
B at order 0 and C (not D) at order 1, with A and D (not C) detached — the
second removal acts on the already-shifted vector, so it removes the element
originally at index 3.  The conjunction asserts the actual outcome and then
refutes the claimed one. -/
theorem C1_counterexample :
    isCommitted (RefList.done_delete (RefList.from_slice [10, 20, 30, 40]) [0, 2]) = true ∧
    orderOf (stateOf (RefList.done_delete (RefList.from_slice [10, 20, 30, 40]) [0, 2])) 0 = none ∧
    orderOf (stateOf (RefList.done_delete (RefList.from_slice [10, 20, 30, 40]) [0, 2])) 1 = some 0 ∧
    orderOf (stateOf (RefList.done_delete (RefList.from_slice [10, 20, 30, 40]) [0, 2])) 2 = some 1 ∧
    orderOf (stateOf (RefList.done_delete (RefList.from_slice [10, 20, 30, 40]) [0, 2])) 3 = none ∧
    valOf (stateOf (RefList.done_delete (RefList.from_slice [10, 20, 30, 40]) [0, 2])) 2 = some 30 ∧
    ¬ (orderOf (stateOf (RefList.done_delete (RefList.from_slice [10, 20, 30, 40]) [0, 2])) 3 = some 1 ∧
       orderOf (stateOf (RefList.done_delete (RefList.from_slice [10, 20, 30, 40]) [0, 2])) 2 = none) := by
  decide

/-- C1, amended to singleton batches: committing the deletion of one in-bounds
index `i` — through a transaction `begin_delete().push(i).done()` or through
`done_delete(&[i])` — removes exactly the element originally at `i` (its
handle becomes detached), survivors keep their original relative order
(`items` becomes `eraseIdx i`), and every surviving handle's new order is its
original index minus the count of batch members strictly below it. -/
theorem C1_singleton_batch {T : Type} {s : RefListState T} {i : Nat}
    (hWF : WF s) (hi : i < RefList.len s) :
    DeleteTransaction.done (DeleteTransaction.push (RefList.begin_delete s) i) =
      RefList.done_delete s [i] ∧
    ∃ s', RefList.done_delete s [i] = .ok s' ∧
      s'.items = s.items.eraseIdx i ∧
      (∀ pos q, pos ≠ i → s.items[pos]? = some q →
        orderOf s' q = some (pos - (if i < pos then 1 else 0))) ∧
      (∀ q, s.items[i]? = some q → orderOf s' q = none) := by
  refine ⟨rfl, ?_⟩
  obtain ⟨s', h1, h2, _, h4, h5⟩ := delete_one_ok hWF hi
  exact ⟨s', h1, h2, h4, h5⟩

/-- C1, witness: the amended theorem applied to the three-element list of the
source's own test, deleting index 1. -/
theorem C1_singleton_batch_witness :
    WF (RefList.from_slice [10, 20, 30]) ∧
    1 < RefList.len (RefList.from_slice [10, 20, 30]) ∧
    (DeleteTransaction.done (DeleteTransaction.push
        (RefList.begin_delete (RefList.from_slice [10, 20, 30])) 1) =
      RefList.done_delete (RefList.from_slice [10, 20, 30]) [1] ∧
    ∃ s', RefList.done_delete (RefList.from_slice [10, 20, 30]) [1] = .ok s' ∧
      s'.items = (RefList.from_slice [10, 20, 30]).items.eraseIdx 1 ∧
      (∀ pos q, pos ≠ 1 → (RefList.from_slice [10, 20, 30]).items[pos]? = some q →
        orderOf s' q = some (pos - (if 1 < pos then 1 else 0))) ∧
      (∀ q, (RefList.from_slice [10, 20, 30]).items[1]? = some q →
        orderOf s' q = none)) :=
  ⟨WF_from_slice _, by decide,
    C1_singleton_batch (WF_from_slice [10, 20, 30]) (by decide)⟩

/-! ### Claim C2 -/

/-- C2, counterexample: on a three-element list, the batch `[0, 0]` is NOT
idempotent — it removes two elements (length 1 remains), while `[0]` removes
one (length 2 remains), and the final states differ. -/
theorem C2_counterexample :
    RefList.len (stateOf (RefList.done_delete (RefList.from_slice [1, 2, 3]) [0, 0])) = 1 ∧
    RefList.len (stateOf (RefList.done_delete (RefList.from_slice [1, 2, 3]) [0])) = 2 ∧
    orderOf (stateOf (RefList.done_delete (RefList.from_slice [1, 2, 3]) [0, 0])) 1 = none ∧
    orderOf (stateOf (RefList.done_delete (RefList.from_slice [1, 2, 3]) [0])) 1 = some 0 ∧
    RefList.done_delete (RefList.from_slice [1, 2, 3]) [0, 0] ≠
      RefList.done_delete (RefList.from_slice [1, 2, 3]) [0] := by
  decide

/-- C2, amended: committing the batch `[i, i]` on a well-formed list with
`i + 1` in bounds removes TWO elements — the ones originally at `i` and at
`i + 1` — both of whose handles become detached; the length drops by two
(whereas `[i]` drops it by one), and each survivor's order drops by two
exactly when `i` was below its original index. -/
theorem C2_duplicate_index {T : Type} {s : RefListState T} {i : Nat}
    (hWF : WF s) (hi : i + 1 < RefList.len s) :
    (∃ s1, RefList.done_delete s [i] = .ok s1 ∧
      RefList.len s1 = RefList.len s - 1) ∧
    ∃ s2, RefList.done_delete s [i, i] = .ok s2 ∧
      RefList.len s2 = RefList.len s - 2 ∧
      (∀ q, s.items[i]? = some q ∨ s.items[i+1]? = some q →
        orderOf s2 q = none) ∧
      (∀ pos q, pos ≠ i → pos ≠ i + 1 → s.items[pos]? = some q →
        orderOf s2 q = some (pos - (if i < pos then 2 else 0))) := by
  have hi' : i + 1 < s.items.length := hi
  have hilt : i < s.items.length := by omega
  constructor
  · obtain ⟨s1, h1, h2, _, _, _⟩ := delete_one_ok hWF hilt
    refine ⟨s1, h1, ?_⟩
    show s1.items.length = s.items.length - 1
    rw [h2, List.length_eraseIdx, if_pos (by omega)]
  · obtain ⟨s2, h1, h2, _, h4, h5⟩ := delete_pair_ok hWF hi'
    exact ⟨s2, h1, h2, h5, h4⟩

/-- C2, witness: the amended theorem applied to a four-element list with the
duplicate batch `[1, 1]`. -/
theorem C2_duplicate_index_witness :
    WF (RefList.from_slice [1, 2, 3, 4]) ∧
    1 + 1 < RefList.len (RefList.from_slice [1, 2, 3, 4]) ∧
    ((∃ s1, RefList.done_delete (RefList.from_slice [1, 2, 3, 4]) [1] = .ok s1 ∧
      RefList.len s1 = RefList.len (RefList.from_slice [1, 2, 3, 4]) - 1) ∧
    ∃ s2, RefList.done_delete (RefList.from_slice [1, 2, 3, 4]) [1, 1] = .ok s2 ∧
      RefList.len s2 = RefList.len (RefList.from_slice [1, 2, 3, 4]) - 2 ∧
      (∀ q, (RefList.from_slice [1, 2, 3, 4]).items[1]? = some q ∨
          (RefList.from_slice [1, 2, 3, 4]).items[1+1]? = some q →
        orderOf s2 q = none) ∧
      (∀ pos q, pos ≠ 1 → pos ≠ 1 + 1 →
          (RefList.from_slice [1, 2, 3, 4]).items[pos]? = some q →
        orderOf s2 q = some (pos - (if 1 < pos then 2 else 0)))) :=
  ⟨WF_from_slice _, by decide,
    C2_duplicate_index (WF_from_slice [1, 2, 3, 4]) (by decide)⟩

/-! ### Claim C3 -/

/-- C3, counterexample: committing `[0, 5]` on a three-element list faults on
the invalid index 5, but the removal of index 0 has already been applied and
stays observable — the list shrank to two elements and the handle of the
element formerly at index 0 reads `order() == None`.  The commit is not
atomic. -/
theorem C3_counterexample :
    isCommitted (RefList.done_delete (RefList.from_slice [1, 2, 3]) [0, 5]) = false ∧
    RefList.len (stateOf (RefList.done_delete (RefList.from_slice [1, 2, 3]) [0, 5])) = 2 ∧
    RefList.len (RefList.from_slice [1, 2, 3]) = 3 ∧
    orderOf (stateOf (RefList.done_delete (RefList.from_slice [1, 2, 3]) [0, 5])) 0 = none ∧
    orderOf (RefList.from_slice [1, 2, 3]) 0 = some 0 ∧
    stateOf (RefList.done_delete (RefList.from_slice [1, 2, 3]) [0, 5]) ≠
      RefList.from_slice [1, 2, 3] := by
  decide

/-- C3, amended: when the commit faults because an index is out of bounds at
its point of application, the observable state is exactly the state after the
removals of the indices preceding the faulting one — those removals stay
applied and no renumbering has run.  Only when the faulting index comes first
is the state unchanged. -/
theorem C3_fault_applies_prior_removals {T : Type} {s s1 : RefListState T}
    {good : List Nat} {bad : Nat} {rest : List Nat}
    (hgood : RefList.removePass s good = .ok s1)
    (hbad : RefList.len s1 ≤ bad) :
    RefList.done_delete s (good ++ bad :: rest) = .error s1 ∧
    (good = [] → s1 = s) := by
  refine ⟨done_delete_fault hgood hbad, ?_⟩
  intro he
  subst he
  rw [removePass_nil] at hgood
  exact (Except.ok.inj hgood).symm

/-- C3, witness: the amended theorem applied to the three-element list with
batch `[0, 5]` (so `good = [0]`, `bad = 5`). -/
theorem C3_fault_applies_prior_removals_witness :
    RefList.removePass (RefList.from_slice [1, 2, 3]) [0] =
      .ok (stateOf (RefList.removePass (RefList.from_slice [1, 2, 3]) [0])) ∧
    RefList.len (stateOf (RefList.removePass (RefList.from_slice [1, 2, 3]) [0])) ≤ 5 ∧
    (RefList.done_delete (RefList.from_slice [1, 2, 3]) ([0] ++ 5 :: []) =
      .error (stateOf (RefList.removePass (RefList.from_slice [1, 2, 3]) [0])) ∧
    ([0] = ([] : List Nat) →
      stateOf (RefList.removePass (RefList.from_slice [1, 2, 3]) [0]) =
        RefList.from_slice [1, 2, 3])) :=
  ⟨by decide, by decide,
    C3_fault_applies_prior_removals (by decide) (by decide)⟩

/-! ### Claim C4 -/

/-- C4, counterexample: the invariant `list[i].order() == Some(i)` is NOT
maintained under committed deletions with arbitrary batch contents.  After
`from_slice [1,2,3]` and committing the batch `[2, 0]`, the commit succeeds,
one element survives at position 0, but its order reads `Some 1`. -/
theorem C4_counterexample :
    isCommitted (RefList.done_delete (RefList.from_slice [1, 2, 3]) [2, 0]) = true ∧
    (stateOf (RefList.done_delete (RefList.from_slice [1, 2, 3]) [2, 0])).items[0]? = some 1 ∧
    orderOf (stateOf (RefList.done_delete (RefList.from_slice [1, 2, 3]) [2, 0])) 1 = some 1 ∧
    ¬ orderOf (stateOf (RefList.done_delete (RefList.from_slice [1, 2, 3]) [2, 0])) 1 = some 0 := by
  decide

/-- C4, amended: the invariant holds for every state reachable by `new`,
`from_slice`, `push`, handle clones/drops, and committed SINGLETON deletions:
at every point between operations, the entry stored at position `pos` has
`order() == Some pos`. -/
theorem C4_invariant_reachable {T : Type} {s : RefListState T}
    (h : Reachable s) :
    ∀ pos q, s.items[pos]? = some q → orderOf s q = some pos := by
  intro pos q hq
  obtain ⟨c, hc, hci⟩ := h.wf.2 pos q hq
  exact orderOf_eq_some_iff.mpr ⟨c, hc, hci⟩

/-- C4, witness: the amended theorem applied to the state reached by
`from_slice [1,2,3]` followed by `delete_one 1`. -/
theorem C4_invariant_reachable_witness :
    orderOf (stateOf (RefList.done_delete (RefList.from_slice [1, 2, 3]) [1]))
      2 = some 1 :=
  C4_invariant_reachable
    (Reachable.delete_one 1 (Reachable.from_slice [1, 2, 3]) (by decide))
    1 2 (by decide)

/-! ### Claim C5 -/

/-- C5, confirmed: building a transaction with any sequence of `push(idx)`
calls and dropping it without `done()` leaves the borrowed list untouched —
it is returned exactly as it was, so its length and every handle's order are
unchanged. -/
theorem C5_abandoned_transaction {T : Type} (s : RefListState T)
    (idxs : List Nat) :
    (idxs.foldl DeleteTransaction.push (RefList.begin_delete s)).list = s ∧
    RefList.len (idxs.foldl DeleteTransaction.push (RefList.begin_delete s)).list =
      RefList.len s ∧
    ∀ p, orderOf (idxs.foldl DeleteTransaction.push (RefList.begin_delete s)).list p =
      orderOf s p := by
  have key : ∀ (l : List Nat) (tx : DeleteTransaction T),
      (l.foldl DeleteTransaction.push tx).list = tx.list := by
    intro l
    induction l with
    | nil => intro tx; rfl
    | cons i is ih => intro tx; exact ih _
  have h : (idxs.foldl DeleteTransaction.push (RefList.begin_delete s)).list = s :=
    key idxs (RefList.begin_delete s)
  exact ⟨h, by rw [h], fun p => by rw [h]⟩

/-! ### Claim C6 -/

/-- C6, confirmed: `push(value)` appends the value at index `len`, increments
the length by one, and the returned handle reads `order() == Some(len before
push)` and the pushed value; consequently, for any sequence of pushes from an
empty list with no intervening deletion, the i-th pushed handle has
`order() == Some(i)`. -/
theorem C6_push_appends_at_len {T : Type} (s : RefListState T) (t : T)
    (ts : List T) :
    RefList.len (RefList.push s t).1 = RefList.len s + 1 ∧
    (RefList.push s t).1.items[RefList.len s]? = some (RefList.push s t).2 ∧
    orderOf (RefList.push s t).1 (RefList.push s t).2 = some (RefList.len s) ∧
    valOf (RefList.push s t).1 (RefList.push s t).2 = some t ∧
    (∀ i p, (pushAll (RefList.new T) ts).2[i]? = some p →
      orderOf (pushAll (RefList.new T) ts).1 p = some i) := by
  refine ⟨push_len s t, push_appends s t, push_order s t, push_val s t, ?_⟩
  intro i p h
  simpa [RefList.new] using (pushAll_orders ts (RefList.new T)).2 i p h

/-- C6, witness: pushing 9 onto `from_slice [5]`, and the third handle of
three pushes from an empty list. -/
theorem C6_push_appends_at_len_witness :
    RefList.len (RefList.push (RefList.from_slice [5]) 9).1 =
      RefList.len (RefList.from_slice [5]) + 1 ∧
    orderOf (RefList.push (RefList.from_slice [5]) 9).1
      (RefList.push (RefList.from_slice [5]) 9).2 =
        some (RefList.len (RefList.from_slice [5])) ∧
    (pushAll (RefList.new Nat) [7, 8, 9]).2[2]? = some 2 ∧
    orderOf (pushAll (RefList.new Nat) [7, 8, 9]).1 2 = some 2 :=
  ⟨(C6_push_appends_at_len (RefList.from_slice [5]) 9 []).1,
   (C6_push_appends_at_len (RefList.from_slice [5]) 9 []).2.2.1,
   by decide,
   (C6_push_appends_at_len (RefList.new Nat) 0 [7, 8, 9]).2.2.2.2 2 2 (by decide)⟩

/-! ### Claim C7 -/

/-- C7, confirmed: `get(idx)` never faults; it returns `None` exactly when
`idx` is out of bounds and otherwise a clone of the handle at `idx`, whose
order (on a well-formed list) is `Some idx`; in particular after
`from_slice [x, y, z]`, `get(5)` is `None` and `get(1)` returns a handle with
order `Some 1` and value `y`. -/
theorem C7_get_checked {T : Type} (s : RefListState T) (idx : Nat)
    (hWF : WF s) (x y z : T) :
    (RefList.len s ≤ idx → (RefList.get s idx).1 = none) ∧
    (idx < RefList.len s →
      ∃ p, (RefList.get s idx).1 = some p ∧ orderOf s p = some idx) ∧
    (RefList.get (RefList.from_slice [x, y, z]) 5).1 = none ∧
    ∃ p, (RefList.get (RefList.from_slice [x, y, z]) 1).1 = some p ∧
      orderOf (RefList.from_slice [x, y, z]) p = some 1 ∧
      valOf (RefList.from_slice [x, y, z]) p = some y := by
  refine ⟨?_, ?_, rfl, 1, rfl, rfl, rfl⟩
  · intro h
    unfold RefList.get
    rw [List.getElem?_eq_none h]
  · intro h
    have hq : s.items[idx]? = some s.items[idx] := List.getElem?_eq_getElem h
    obtain ⟨c, hc, hci⟩ := hWF.2 idx _ hq
    refine ⟨s.items[idx], ?_, orderOf_eq_some_iff.mpr ⟨c, hc, hci⟩⟩
    unfold RefList.get
    rw [hq]

/-- C7, witness: the theorem applied to `from_slice [4, 5, 6]` at index 1. -/
theorem C7_get_checked_witness :
    1 < RefList.len (RefList.from_slice [4, 5, 6]) ∧
    (∃ p, (RefList.get (RefList.from_slice [4, 5, 6]) 1).1 = some p ∧
      orderOf (RefList.from_slice [4, 5, 6]) p = some 1) ∧
    (RefList.get (RefList.from_slice [4, 5, 6]) 5).1 = none :=
  ⟨by decide,
   (C7_get_checked (RefList.from_slice [4, 5, 6]) 1 (WF_from_slice _) 4 5 6).2.1
     (by decide),
   (C7_get_checked (RefList.from_slice [4, 5, 6]) 1 (WF_from_slice _) 4 5 6).2.2.1⟩

/-! ### Claim C8 -/

/-- C8, confirmed: once an entry is detached, it stays detached through every
further sequence of operations — pushes, checked gets, handle clones and
drops, and further deletions (committed or faulting) never return it to an
`Index` origin, so every clone of its handle reads `order() == None` forever. -/
theorem C8_detached_permanent {T : Type} {s : RefListState T} {p : Nat}
    (h : DetachedAt s p) (ops : List (Op T)) :
    DetachedAt (applyOps s ops) p ∧ orderOf (applyOps s ops) p = none := by
  have h' := DetachedAt_applyOps h ops
  obtain ⟨c, hc, hd⟩ := h'
  exact ⟨⟨c, hc, hd⟩, orderOf_eq_none_of_detached hc hd⟩

/-- C8, witness: the entry detached by deleting index 0 from a two-element
list stays detached through a push, a further deletion and a clone. -/
theorem C8_detached_permanent_witness :
    DetachedAt (stateOf (RefList.done_delete (RefList.from_slice [1, 2]) [0])) 0 ∧
    (DetachedAt (applyOps (stateOf (RefList.done_delete (RefList.from_slice [1, 2]) [0]))
        [Op.push 9, Op.delete [0], Op.clone 0]) 0 ∧
      orderOf (applyOps (stateOf (RefList.done_delete (RefList.from_slice [1, 2]) [0]))
        [Op.push 9, Op.delete [0], Op.clone 0]) 0 = none) :=
  ⟨⟨{ entry := { val := 1, index := .Detached }, rc := 0 }, by decide, rfl⟩,
   C8_detached_permanent
     ⟨{ entry := { val := 1, index := .Detached }, rc := 0 }, by decide, rfl⟩
     [Op.push 9, Op.delete [0], Op.clone 0]⟩

/-! ### Claim C9 -/

/-- Modelled from the spec's words for what `link_count` should return: the
number of `EntryHandle` clones currently alive that reference this entry —
i.e. the strong count of its cell — excluding the internal clone the list
retains while the entry still occupies an item slot. -/
def aliveExternalClones (s : RefListState T) (p : Nat) : Nat :=
  (match s.store[p]? with
   | some c => c.rc
   | none => 0) - (if p ∈ s.items then 1 else 0)

/-- C9, counterexample: `link_count` is `strong_count - 1` unconditionally.
After pushing one element (keeping its handle) and deleting it, the list no
longer retains an internal clone, one handle clone is still alive, yet
`link_count` reads 0, not 1. -/
theorem C9_counterexample :
    link_count (stateOf (RefList.done_delete (RefList.push (RefList.new Nat) 7).1 [0])) 0 = 0 ∧
    aliveExternalClones (stateOf (RefList.done_delete (RefList.push (RefList.new Nat) 7).1 [0])) 0 = 1 ∧
    ¬ link_count (stateOf (RefList.done_delete (RefList.push (RefList.new Nat) 7).1 [0])) 0 =
        aliveExternalClones (stateOf (RefList.done_delete (RefList.push (RefList.new Nat) 7).1 [0])) 0 := by
  decide

/-- C9, amended: `link_count()` equals the number of alive handle clones
excluding the list's internal one only WHILE the entry occupies an item slot
(it always returns `strong_count - 1`, so for a detached entry it is one less
than the number of alive clones); and creating a clone then dropping it always
returns `link_count()` to its prior value. -/
theorem C9_link_count {T : Type} (s : RefListState T) (p : Nat) :
    (p ∈ s.items → link_count s p = aliveExternalClones s p) ∧
    link_count (dropHandle (cloneHandle s p) p) p = link_count s p := by
  constructor
  · intro hp
    unfold link_count aliveExternalClones
    rw [if_pos hp]
  · cases hc : s.store[p]? with
    | none =>
        unfold link_count dropHandle cloneHandle setCell
        simp [hc]
    | some c =>
        have hplt : p < s.store.length := (List.getElem?_eq_some_iff.mp hc).1
        have h1 : (cloneHandle s p).store[p]? = some { c with rc := c.rc + 1 } :=
          setCell_getElem_eq hc _
        have h2 : (dropHandle (cloneHandle s p) p).store[p]? =
            some { c with rc := c.rc + 1 - 1 } :=
          setCell_getElem_eq h1 _
        unfold link_count
        rw [h2, hc]
        simp

/-- C9, witness: the amended theorem applied to a freshly pushed element. -/
theorem C9_link_count_witness :
    0 ∈ (RefList.push (RefList.new Nat) 7).1.items ∧
    link_count (RefList.push (RefList.new Nat) 7).1 0 =
      aliveExternalClones (RefList.push (RefList.new Nat) 7).1 0 ∧
    link_count (dropHandle (cloneHandle (RefList.push (RefList.new Nat) 7).1 0) 0) 0 =
      link_count (RefList.push (RefList.new Nat) 7).1 0 :=
  ⟨by decide,
   (C9_link_count (RefList.push (RefList.new Nat) 7).1 0).1 (by decide),
   (C9_link_count (RefList.push (RefList.new Nat) 7).1 0).2⟩

/-! ### Claim C10 -/

/-- C10, counterexample: with the duplicate batch `[0, 0, 1]` on a
five-element list every removal of the first pass is in bounds (the pass
succeeds), yet the survivor whose stored order is 2 has
`take_while` count 3 > 2, so the renumbering subtraction underflows and the
commit faults. -/
theorem C10_counterexample :
    isCommitted (RefList.removePass (RefList.from_slice [1, 2, 3, 4, 5]) [0, 0, 1]) = true ∧
    (2 : Nat) ∈ (stateOf (RefList.removePass (RefList.from_slice [1, 2, 3, 4, 5]) [0, 0, 1])).items ∧
    orderOf (stateOf (RefList.removePass (RefList.from_slice [1, 2, 3, 4, 5]) [0, 0, 1])) 2 = some 2 ∧
    RefList.cntLess [0, 0, 1] 2 = 3 ∧
    ¬ RefList.cntLess [0, 0, 1] 2 ≤ 2 ∧
    isCommitted (RefList.done_delete (RefList.from_slice [1, 2, 3, 4, 5]) [0, 0, 1]) = false := by
  decide

/-- C10, amended: when the batch has pairwise-distinct members (and the list
starts well-formed), a first pass whose removals are all in bounds leaves
every stored entry with an `Index` origin (the `Detached` branch really is
unreachable), every survivor's `take_while` count is at most its stored
order (the subtraction cannot underflow), and the renumbering pass succeeds. -/
theorem C10_renumber_safe {T : Type} {s s1 : RefListState T}
    {indices : List Nat} (hWF : WF s) (hnd : indices.Nodup)
    (hok : RefList.removePass s indices = .ok s1) :
    AllIndexed s1 ∧
    (∀ p, p ∈ s1.items → ∀ c : Cell T, s1.store[p]? = some c →
      ∀ j, c.entry.index = .Index j → RefList.cntLess indices j ≤ j) ∧
    ∃ st, RefList.renumberPass indices s1.items s1.store = .ok st := by
  have hAI : AllIndexed s1 := AllIndexed_removePass hWF.allIndexed hok
  refine ⟨hAI, fun p _ c _ j _ => cntLess_le_of_nodup hnd j, ?_⟩
  obtain ⟨st, hst, _, _, _⟩ :=
    renumberPass_ok indices s1.items s1.store hAI.1
      (by
        intro q hq
        obtain ⟨c, hc, j, hj⟩ := hAI.2 q hq
        exact ⟨c, hc, j, hj, cntLess_le_of_nodup hnd j⟩)
  exact ⟨st, hst⟩

/-- C10, witness: the amended theorem applied to the distinct batch `[0, 2]`
on a five-element list. -/
theorem C10_renumber_safe_witness :
    WF (RefList.from_slice [1, 2, 3, 4, 5]) ∧
    ([0, 2] : List Nat).Nodup ∧
    RefList.removePass (RefList.from_slice [1, 2, 3, 4, 5]) [0, 2] =
      .ok (stateOf (RefList.removePass (RefList.from_slice [1, 2, 3, 4, 5]) [0, 2])) ∧
    (AllIndexed (stateOf (RefList.removePass (RefList.from_slice [1, 2, 3, 4, 5]) [0, 2])) ∧
    (∀ p, p ∈ (stateOf (RefList.removePass (RefList.from_slice [1, 2, 3, 4, 5]) [0, 2])).items →
      ∀ c : Cell Nat,
        (stateOf (RefList.removePass (RefList.from_slice [1, 2, 3, 4, 5]) [0, 2])).store[p]? = some c →
      ∀ j, c.entry.index = .Index j → RefList.cntLess [0, 2] j ≤ j) ∧
    ∃ st, RefList.renumberPass [0, 2]
        (stateOf (RefList.removePass (RefList.from_slice [1, 2, 3, 4, 5]) [0, 2])).items
        (stateOf (RefList.removePass (RefList.from_slice [1, 2, 3, 4, 5]) [0, 2])).store = .ok st) :=
  ⟨WF_from_slice _, by decide, by decide,
   C10_renumber_safe (WF_from_slice [1, 2, 3, 4, 5]) (by decide) (by decide)⟩

end RefListModel
